import Mathlib

/-!
Verification of the composition layer in `chainer/link.py`
(`Link`, `Chain`, `ChainList`, `Sequential`).

The Python classes are embedded shallowly:

* A `LinkState` record mirrors the instance state of `Link`: the attribute
  dictionary `__dict__` (an association list from names to values), the
  registry sets `_params` and `_persistent`, the device flags `_cpu` and
  `_device_id`, the `name` field, and the `_within_init_scope` flag.
* Array storage is abstracted by `ArrRef`: an abstract storage identifier
  (`ptr`, used to reason about aliasing) together with a placement (`Loc`).
* Methods that can raise return a pair of the post-state and an optional
  error message; mutations performed before a raise are visible in the
  returned state, exactly as in Python.
* `Chain` extends the state with the `_children` name set; `ChainList` and
  `Sequential` keep ordered child/layer lists.  `Sequential.__call__` is
  modelled over an inductive type of Python values (atoms and tuples), and
  `Sequential.__mul__` over layers that carry parameter storage pointers.
-/

namespace ChainerLink

/-- Device placement of an array: host memory or a numbered accelerator. -/
inductive Loc where
  | host : Loc
  | device : Nat → Loc
deriving DecidableEq

/-- Whether a placement is an accelerator device (`isinstance(v, cuda.ndarray)`). -/
def Loc.isDevice : Loc → Bool
  | Loc.host => false
  | Loc.device _ => true

/-- An array reference: abstract storage identity plus placement. -/
structure ArrRef where
  ptr : Nat
  loc : Loc
deriving DecidableEq

/-- A `chainer.Parameter` holder: a name, optional data array, optional
gradient array (`None` when uninitialized or cleared). -/
structure Param where
  pname : Option String
  data : Option ArrRef
  grad : Option ArrRef
deriving DecidableEq

/-- A child link as seen by its parent: an object identity and the `name`
field the parent overwrites on registration. -/
structure ChildLink where
  id : Nat
  lname : Option String
deriving DecidableEq

/-- A value stored in a link attribute dictionary: an opaque plain value,
a raw array (typical persistent value), a `Parameter` holder, or a child
`Link`. -/
inductive Attr where
  | plain : Nat → Attr
  | arr : ArrRef → Attr
  | param : Param → Attr
  | clink : ChildLink → Attr
deriving DecidableEq

/-- Python dict assignment `d[k] = v` on an association list: replace the
binding if the key is present, else append it. -/
def setA : List (String × Attr) → String → Attr → List (String × Attr)
  | [], n, v => [(n, v)]
  | (k, w) :: rest, n, v =>
    if k = n then (n, v) :: rest else (k, w) :: setA rest n v

/-- Python `name in d` on the attribute dictionary. -/
def hasA (d : List (String × Attr)) (n : String) : Bool :=
  (List.lookup n d).isSome

/-- Python `del d[k]`: remove the binding of `k` (first occurrence). -/
def removeA : List (String × Attr) → String → List (String × Attr)
  | [], _ => []
  | (k, w) :: rest, n =>
    if k = n then rest else (k, w) :: removeA rest n

/-- Move an array to the given placement (device transfer). -/
def arrTo (l : Loc) (a : ArrRef) : ArrRef :=
  { a with loc := l }

/-- Move a parameter (data and gradient arrays) to the given placement,
as `Variable.to_cpu` / `Variable.to_gpu` do. -/
def paramTo (l : Loc) (p : Param) : Param :=
  { p with data := p.data.map (arrTo l), grad := p.grad.map (arrTo l) }

/-- Instance state of a `Link`: `__dict__` plus the fields the class
manages.  The bookkeeping fields (`_params`, ...) also appear as opaque
entries of `attrs`, since `Link.__init__` stores them in `__dict__`. -/
structure LinkState where
  attrs : List (String × Attr)
  _params : Finset String
  _persistent : Finset String
  _cpu : Bool
  _device_id : Option Nat
  name : Option String
  withinInitScope : Bool
deriving DecidableEq

/-- `Link.__init__` (no deprecated keyword parameters): empty registries,
CPU placement, no device, unattached, outside any initialization scope. -/
def Link.init : LinkState :=
  { attrs := [("_params", Attr.plain 0), ("_persistent", Attr.plain 0),
              ("_cpu", Attr.plain 1), ("_device_id", Attr.plain 0),
              ("_within_init_scope", Attr.plain 0), ("name", Attr.plain 0)],
    _params := ∅, _persistent := ∅, _cpu := true, _device_id := none,
    name := none, withinInitScope := false }

/-- `Link.__setattr__`: inside an initialization scope, assigning a
`Parameter` sets its name, migrates it to the current device when the link
is not on CPU, adds the name to `_params` and discards it from
`_persistent`; any other assignment is a plain dictionary write. -/
def Link.setattr (s : LinkState) (n : String) (v : Attr) : LinkState :=
  match v with
  | Attr.param p =>
    if s.withinInitScope then
      let p1 := { p with pname := some n }
      let p2 := if s._cpu then p1 else paramTo (Loc.device (s._device_id.getD 0)) p1
      { s with attrs := setA s.attrs n (Attr.param p2),
               _params := insert n s._params,
               _persistent := s._persistent.erase n }
    else
      { s with attrs := setA s.attrs n v }
  | _ => { s with attrs := setA s.attrs n v }

/-- `Link.__delattr__`: discard the name from both registry sets, then
perform the underlying attribute deletion, which raises `AttributeError`
when the attribute is absent (the set discards have already happened). -/
def Link.delattr (s : LinkState) (n : String) : LinkState × Option String :=
  let s1 := { s with _params := s._params.erase n,
                     _persistent := s._persistent.erase n }
  if hasA s1.attrs n then
    ({ s1 with attrs := removeA s1.attrs n }, none)
  else
    (s1, some ("AttributeError"))

/-- `Link.add_persistent`: raises when the name is already an attribute;
otherwise adds the name to `_persistent`, discards it from `_params`, and
stores the value. -/
def Link.add_persistent (s : LinkState) (n : String) (v : Attr) :
    LinkState × Option String :=
  if hasA s.attrs n then
    (s, some ("cannot register a new persistent value: attribute exists"))
  else
    ({ s with _persistent := insert n s._persistent,
              _params := s._params.erase n,
              attrs := setA s.attrs n v }, none)

/-- `Link.register_persistent`: raises when the attribute does not exist;
otherwise adds the name to `_persistent` and discards it from `_params`. -/
def Link.register_persistent (s : LinkState) (n : String) :
    LinkState × Option String :=
  if hasA s.attrs n then
    ({ s with _persistent := insert n s._persistent,
              _params := s._params.erase n }, none)
  else
    (s, some ("cannot register non-existent attribute as a persistent value"))

/-- A registration operation on a link, as in the claim: assignment of a
`Parameter` (with the scope flag at the time of the assignment), a plain
attribute assignment, `add_persistent`, `register_persistent`, and
attribute deletion. -/
inductive RegOp where
  | assignParam : Bool → String → Param → RegOp
  | assignPlain : String → Nat → RegOp
  | addPers : String → Nat → RegOp
  | regPers : String → RegOp
  | del : String → RegOp

/-- Apply one registration operation; a raised error aborts the operation
with whatever mutations the source performs before raising. -/
def applyReg (s : LinkState) (op : RegOp) : LinkState :=
  match op with
  | RegOp.assignParam inScope n p =>
    let s1 := Link.setattr { s with withinInitScope := inScope } n (Attr.param p)
    { s1 with withinInitScope := s.withinInitScope }
  | RegOp.assignPlain n v => Link.setattr s n (Attr.plain v)
  | RegOp.addPers n v => (Link.add_persistent s n (Attr.plain v)).1
  | RegOp.regPers n => (Link.register_persistent s n).1
  | RegOp.del n => (Link.delattr s n).1

/-- Run a sequence of registration operations. -/
def runReg (s : LinkState) (ops : List RegOp) : LinkState :=
  ops.foldl applyReg s

theorem disjoint_insert_erase {P Q : Finset String} (n : String)
    (h : Disjoint P Q) : Disjoint (insert n P) (Q.erase n) := by
  rw [Finset.disjoint_left] at h ⊢
  intro a ha hb
  rcases Finset.mem_insert.mp ha with rfl | haP
  · exact (Finset.mem_erase.mp hb).1 rfl
  · exact h haP (Finset.mem_erase.mp hb).2

theorem applyReg_disjoint (s : LinkState) (op : RegOp)
    (h : Disjoint s._params s._persistent) :
    Disjoint (applyReg s op)._params (applyReg s op)._persistent := by
  cases op with
  | assignParam inScope n p =>
    simp only [applyReg, Link.setattr]
    by_cases hs : inScope
    · simp only [hs, if_true]
      exact disjoint_insert_erase n h
    · simp only [hs, if_false]
      exact h
  | assignPlain n v =>
    simpa [applyReg, Link.setattr] using h
  | addPers n v =>
    simp only [applyReg, Link.add_persistent]
    by_cases hc : hasA s.attrs n
    · simpa [hc] using h
    · simp only [hc]
      simpa using (disjoint_insert_erase n h.symm).symm
  | regPers n =>
    simp only [applyReg, Link.register_persistent]
    by_cases hc : hasA s.attrs n
    · simp only [hc]
      simpa using (disjoint_insert_erase n h.symm).symm
    · simpa [hc] using h
  | del n =>
    have hsub : Disjoint (s._params.erase n) (s._persistent.erase n) :=
      Finset.disjoint_of_subset_left (Finset.erase_subset n _)
        (Finset.disjoint_of_subset_right (Finset.erase_subset n _) h)
    by_cases hc : hasA s.attrs n = true
    · simpa [applyReg, Link.delattr, hc] using hsub
    · simpa [applyReg, Link.delattr, hc] using hsub

theorem runReg_disjoint (ops : List RegOp) (s : LinkState)
    (h : Disjoint s._params s._persistent) :
    Disjoint (runReg s ops)._params (runReg s ops)._persistent := by
  induction ops generalizing s with
  | nil => simpa [runReg] using h
  | cons op rest ih =>
    simp only [runReg, List.foldl_cons]
    exact ih (applyReg s op) (applyReg_disjoint s op h)

/-- `Link.copy`: shallow copy of the whole state (registry sets duplicated
with equal contents, plain attributes shared), except that `name` is reset
to `None` and every attribute registered in `_params` is replaced by a
shallow copy of the holder whose gradient is then set to `None` (the data
array reference is shared with the original). -/
def copyAttrVal (P : Finset String) (k : String) (a : Attr) : Attr :=
  if k ∈ P then
    match a with
    | Attr.param p => Attr.param { p with grad := none }
    | a => a
  else a

def Link.copy (s : LinkState) : LinkState :=
  { s with
    name := none,
    attrs := s.attrs.map (fun kv => (kv.1, copyAttrVal s._params kv.1 kv.2)) }

/-- `Link.to_cpu`: returns immediately when already on CPU; otherwise moves
every registered parameter to host, replaces every device-array persistent
value by its host copy, and finally sets `_cpu := true` and clears
`_device_id`. -/
def Link.to_cpu (s : LinkState) : LinkState :=
  if s._cpu then s
  else
    { s with
      attrs := s.attrs.map (fun kv =>
        if kv.1 ∈ s._params then
          match kv.2 with
          | Attr.param p => (kv.1, Attr.param (paramTo Loc.host p))
          | a => (kv.1, a)
        else if kv.1 ∈ s._persistent then
          match kv.2 with
          | Attr.arr a => if a.loc.isDevice then (kv.1, Attr.arr (arrTo Loc.host a)) else kv
          | _ => kv
        else kv),
      _cpu := true, _device_id := none }

/-- Claim C1: starting from a fresh `Link`, every sequence of registration
operations (in-scope `Parameter` assignment, plain assignment,
`add_persistent`, `register_persistent`, attribute deletion) keeps the
parameter-name set and the persistent-name set disjoint: no name is ever
in both registries at once. -/
theorem link_registry_disjoint (ops : List RegOp) :
    Disjoint (runReg Link.init ops)._params (runReg Link.init ops)._persistent :=
  runReg_disjoint ops Link.init (by simp [Link.init])

theorem lookup_map_keyed (g : String → Attr → Attr)
    (l : List (String × Attr)) (n : String) :
    List.lookup n (l.map (fun kv => (kv.1, g kv.1 kv.2)))
      = (List.lookup n l).map (g n) := by
  induction l with
  | nil => rfl
  | cons kv rest ih =>
    by_cases h : n = kv.1
    · simp [List.lookup, h]
    · have hb : (n == kv.1) = false := beq_eq_false_iff_ne.mpr h
      simp only [List.map_cons, List.lookup, hb, ih]

/-- Claim C4: `Link.copy` yields a state whose `name` is reset to `None`
whatever the original name was, whose registered parameter attributes are
fresh holders with the gradient cleared but the same underlying data array
reference as the original, whose registry sets are equal to the original
ones, and whose non-parameter attributes are shared unchanged. -/
theorem link_copy_semantics (s : LinkState) (n : String) (p : Param)
    (hp : n ∈ s._params)
    (hl : List.lookup n s.attrs = some (Attr.param p)) :
    (Link.copy s).name = none ∧
    List.lookup n (Link.copy s).attrs
      = some (Attr.param { pname := p.pname, data := p.data, grad := none }) ∧
    (∀ m, m ∉ s._params →
      List.lookup m (Link.copy s).attrs = List.lookup m s.attrs) ∧
    (Link.copy s)._params = s._params ∧
    (Link.copy s)._persistent = s._persistent := by
  refine ⟨rfl, ?_, ?_, rfl, rfl⟩
  · have h2 := lookup_map_keyed (copyAttrVal s._params) s.attrs n
    simp only [Link.copy, h2, hl, Option.map_some]
    simp [copyAttrVal, hp]
  · intro m hm
    have h2 := lookup_map_keyed (copyAttrVal s._params) s.attrs m
    simp only [Link.copy, h2]
    cases List.lookup m s.attrs with
    | none => rfl
    | some a => simp [copyAttrVal, hm]

/-- A concrete link with one registered parameter `W` whose data array is
storage 5 and whose gradient is storage 6. -/
def linkW : LinkState :=
  applyReg Link.init (RegOp.assignParam true ("W")
    { pname := none, data := some { ptr := 5, loc := Loc.host },
      grad := some { ptr := 6, loc := Loc.host } })

theorem link_copy_semantics_witness :
    ("W") ∈ linkW._params ∧
    List.lookup ("W") linkW.attrs = some (Attr.param
      { pname := some ("W"), data := some { ptr := 5, loc := Loc.host },
        grad := some { ptr := 6, loc := Loc.host } }) ∧
    (Link.copy linkW).name = none ∧
    List.lookup ("W") (Link.copy linkW).attrs = some (Attr.param
      { pname := some ("W"), data := some { ptr := 5, loc := Loc.host },
        grad := none }) ∧
    (Link.copy linkW)._params = linkW._params ∧
    (Link.copy linkW)._persistent = linkW._persistent := by
  have h := link_copy_semantics linkW ("W")
    { pname := some ("W"), data := some { ptr := 5, loc := Loc.host },
      grad := some { ptr := 6, loc := Loc.host } }
    (by decide) (by decide)
  exact ⟨by decide, by decide, h.1, h.2.1, h.2.2.2.1, h.2.2.2.2⟩

theorem to_cpu_of_cpu (t : LinkState) (h : t._cpu = true) :
    Link.to_cpu t = t := by
  unfold Link.to_cpu
  simp [h]

theorem to_cpu_cpu_flag (s : LinkState) : (Link.to_cpu s)._cpu = true := by
  unfold Link.to_cpu
  split
  · assumption
  · rfl

/-- Claim C5: `to_cpu` on a link already in host state is a no-op (the
state — device flags, parameters, persistent values, all attributes — is
returned unchanged, with no error possible), and consequently the second
of two consecutive `to_cpu` calls changes nothing. -/
theorem to_cpu_idempotent (s : LinkState) :
    (s._cpu = true → Link.to_cpu s = s) ∧
    Link.to_cpu (Link.to_cpu s) = Link.to_cpu s :=
  ⟨to_cpu_of_cpu s, to_cpu_of_cpu (Link.to_cpu s) (to_cpu_cpu_flag s)⟩

theorem to_cpu_idempotent_witness :
    Link.init._cpu = true ∧
    Link.to_cpu Link.init = Link.init ∧
    Link.to_cpu (Link.to_cpu Link.init) = Link.to_cpu Link.init :=
  ⟨rfl, (to_cpu_idempotent Link.init).1 rfl, (to_cpu_idempotent Link.init).2⟩

/-- Claim C9 counterexample: deleting an attribute that is absent from the
attribute storage is not error-free — on a fresh link, deleting the never
assigned name `foo` raises (the underlying attribute deletion fails). -/
theorem delattr_absent_cex :
    ((Link.delattr Link.init ("foo")).2).isSome = true := by decide

/-- Claim C9 as amended: attribute deletion always removes the name from
both registry sets (this part is idempotent — a name absent from the sets
is simply not there afterwards), but the operation raises an attribute
error exactly when the name is absent from the attribute storage. -/
theorem delattr_amended (s : LinkState) (n : String) :
    (Link.delattr s n).1._params = s._params.erase n ∧
    (Link.delattr s n).1._persistent = s._persistent.erase n ∧
    ((Link.delattr s n).2 = none ↔ hasA s.attrs n = true) := by
  unfold Link.delattr
  by_cases h : hasA s.attrs n = true
  · simp [h]
  · simp [h]

/-- Instance state of a `Chain`: the `Link` state plus the `_children`
name set.  Child links live in the attribute dictionary as `Attr.clink`
entries. -/
structure ChainState extends LinkState where
  _children : Finset String
deriving DecidableEq

/-- `Chain.__init__` (no deprecated keyword children): `Link.__init__`
followed by `self._children = set()`. -/
def Chain.init : ChainState :=
  { toLinkState :=
      { Link.init with attrs := setA Link.init.attrs ("_children") (Attr.plain 0) },
    _children := ∅ }

/-- `Chain.__setattr__` restricted to `Link`-typed values: inside an
initialization scope it raises a registration conflict when the attribute
already exists (leaving the state untouched), and otherwise sets the
child name, records it in `_children`, and stores the attribute; outside
a scope it is a plain attribute write. -/
def Chain.setattrLink (s : ChainState) (n : String) (l : ChildLink) :
    ChainState × Option String :=
  if s.withinInitScope then
    if hasA s.attrs n then
      (s, some ("cannot register a new link: attribute exists"))
    else
      ({ s with
          toLinkState :=
            Link.setattr s.toLinkState n (Attr.clink { l with lname := some n }),
          _children := insert n s._children }, none)
  else
    ({ s with toLinkState := Link.setattr s.toLinkState n (Attr.clink l) }, none)

/-- `Chain.add_link`: raises when the name is already in the instance
dictionary; otherwise registers the link through an initialization scope
(the scope flag is restored afterwards).  The deprecation warning and the
non-`Link` type check are outside this embedding (the argument is typed). -/
def Chain.add_link (s : ChainState) (n : String) (l : ChildLink) :
    ChainState × Option String :=
  if hasA s.attrs n then
    (s, some ("cannot register a new link: attribute exists"))
  else
    let r := Chain.setattrLink
      { s with toLinkState := { s.toLinkState with withinInitScope := true } } n l
    ({ r.1 with toLinkState :=
        { r.1.toLinkState with withinInitScope := s.withinInitScope } }, r.2)

/-- Claim C6: on a `Chain` that already has an attribute named `n` (for
example a registered child of that name), registering a second child under
`n` — by in-scope assignment or by `add_link` — fails with a
registration-conflict error and leaves the whole state (registry sets,
children, attributes) unchanged. -/
theorem chain_register_conflict (s : ChainState) (n : String) (l : ChildLink)
    (hscope : s.withinInitScope = true)
    (hex : hasA s.attrs n = true) :
    ((Chain.setattrLink s n l).2.isSome = true ∧ (Chain.setattrLink s n l).1 = s) ∧
    ((Chain.add_link s n l).2.isSome = true ∧ (Chain.add_link s n l).1 = s) := by
  refine ⟨⟨?_, ?_⟩, ?_, ?_⟩ <;>
    simp [Chain.setattrLink, Chain.add_link, hscope, hex]

/-- A chain, inside an initialization scope, that already owns a child
registered under the name `x`. -/
def chainWithX : ChainState :=
  let c := (Chain.add_link Chain.init ("x") { id := 7, lname := none }).1
  { c with toLinkState := { c.toLinkState with withinInitScope := true } }

theorem chain_register_conflict_witness :
    chainWithX.withinInitScope = true ∧
    hasA chainWithX.attrs ("x") = true ∧
    (Chain.setattrLink chainWithX ("x") { id := 8, lname := none }).2.isSome = true ∧
    (Chain.setattrLink chainWithX ("x") { id := 8, lname := none }).1 = chainWithX ∧
    (Chain.add_link chainWithX ("x") { id := 8, lname := none }).2.isSome = true ∧
    (Chain.add_link chainWithX ("x") { id := 8, lname := none }).1 = chainWithX := by
  have h := chain_register_conflict chainWithX ("x") { id := 8, lname := none }
    (by decide) (by decide)
  exact ⟨by decide, by decide, h.1.1, h.1.2, h.2.1, h.2.2⟩

/-- A layer of a `Sequential`: a `Link` (identified by object id), an
anonymous callable (a lambda), or any other named callable. -/
inductive SeqLayer where
  | link : Nat → SeqLayer
  | lam : Nat → SeqLayer
  | fn : Nat → SeqLayer
deriving DecidableEq

/-- Registry state of a `Sequential`: the full ordered layer list, the
inherited `ChainList` child list (`Link` layers only), and the anonymous
callable counter `_n_lambda`. -/
structure SeqState where
  _layers : List SeqLayer
  _children : List ChildLink
  _n_lambda : Int
deriving DecidableEq

/-- `Sequential()` with no construction-time layers. -/
def Sequential.empty : SeqState :=
  { _layers := [], _children := [], _n_lambda := 0 }

/-- `ChainList.add_link`: sets the new child's name to the decimal string
of the current child count, then appends it. -/
def ChainList.add_link (cs : List ChildLink) (id : Nat) : List ChildLink :=
  cs ++ [{ id := id, lname := some (toString cs.length) }]

/-- `Sequential.insert`: inserts the layer into `_layers` (Python
`list.insert` clamps an overlarge index to the tail, hence the `min`);
a `Link` layer is additionally registered through `ChainList.add_link`,
and a lambda increments `_n_lambda`.  The callability check is outside the
embedding (every `SeqLayer` models a callable). -/
def Sequential.insert (s : SeqState) (i : Nat) (layer : SeqLayer) : SeqState :=
  let ls := s._layers.insertIdx (min i s._layers.length) layer
  match layer with
  | SeqLayer.link id =>
    { s with _layers := ls, _children := ChainList.add_link s._children id }
  | SeqLayer.lam _ => { s with _layers := ls, _n_lambda := s._n_lambda + 1 }
  | SeqLayer.fn _ => { s with _layers := ls }

/-- Remove the first child with the given object id (the `link is layer`
scan of `Sequential.__delitem__`; object ids are unique). -/
def removeFirst : List ChildLink → Nat → List ChildLink
  | [], _ => []
  | c :: rest, id => if c.id = id then rest else c :: removeFirst rest id

/-- `Sequential.__delitem__`: pops the layer at the index (an out-of-range
index raises `IndexError` before any mutation); a popped `Link` is removed
from `_children` by identity — with no renaming of the remaining children —
and a popped lambda decrements `_n_lambda`. -/
def Sequential.delitem (s : SeqState) (i : Nat) : SeqState :=
  match s._layers[i]? with
  | none => s
  | some layer =>
    let ls := s._layers.eraseIdx i
    match layer with
    | SeqLayer.link id =>
      { s with _layers := ls, _children := removeFirst s._children id }
    | SeqLayer.lam _ => { s with _layers := ls, _n_lambda := s._n_lambda - 1 }
    | SeqLayer.fn _ => { s with _layers := ls }

/-- `Sequential.__reduce__`: raises while the anonymous-callable counter is
positive, naming `functools.partial` as the remedy; otherwise pickling
proceeds normally (modelled as no error). -/
def Sequential.reduceGuard (s : SeqState) : Option String :=
  if s._n_lambda > 0 then
    some ("This Sequential object has at least one lambda function as its component; consider to use functools.partial instead of the lambda function")
  else none

/-- A three-link `Sequential`, built by appending links 10, 11, 12 (this is
what `Sequential(l0, l1, l2)` does); the children are named 0, 1, 2. -/
def seq3 : SeqState :=
  Sequential.insert
    (Sequential.insert
      (Sequential.insert Sequential.empty 0 (SeqLayer.link 10)) 1 (SeqLayer.link 11))
    2 (SeqLayer.link 12)

/-- Claim C2 counterexample: deleting the child at index 0 of a three-child
list does not leave the remaining children named 0 and 1 — the deletion
performs no renumbering. -/
theorem chainlist_del_cex :
    ¬ ((Sequential.delitem seq3 0)._children.map (fun c => c.lname)
        = [some ("0"), some ("1")]) := by decide

/-- Claim C2 as amended: `ChainList.add_link` names the appended child with
the decimal string of the previous length — so a child list built only by
appends has child `i` named `str(i)` — but deletion does not renumber: after
deleting index 0 of the three-child list, the remaining children keep their
original names `1` and `2`. -/
theorem chainlist_naming_amended :
    (∀ cs id, (ChainList.add_link cs id).map (fun c => c.lname)
      = cs.map (fun c => c.lname) ++ [some (toString cs.length)]) ∧
    (Sequential.delitem seq3 0)._children.map (fun c => c.lname)
      = [some ("1"), some ("2")] := by
  constructor
  · intro cs id
    simp [ChainList.add_link]
  · decide

/-- Test for an anonymous-callable layer (`__name__ == <lambda>`). -/
def isLamLayer : SeqLayer → Bool
  | SeqLayer.lam _ => true
  | _ => false

/-- Number of anonymous callables currently in the layer list. -/
def lamCount (s : SeqState) : Nat :=
  s._layers.countP isLamLayer

/-- An editing operation on a `Sequential`: `insert` (hence also `append`
and the constructor) or `__delitem__` (hence also `pop` and `remove`). -/
inductive SeqOp where
  | ins : Nat → SeqLayer → SeqOp
  | del : Nat → SeqOp

def applySeq (s : SeqState) (op : SeqOp) : SeqState :=
  match op with
  | SeqOp.ins i layer => Sequential.insert s i layer
  | SeqOp.del i => Sequential.delitem s i

def runSeq (ops : List SeqOp) : SeqState :=
  ops.foldl applySeq Sequential.empty

theorem countP_insertIdx (p : SeqLayer → Bool) (a : SeqLayer) :
    ∀ (n : Nat) (l : List SeqLayer), n ≤ l.length →
      (l.insertIdx n a).countP p = l.countP p + (if p a then 1 else 0)
  | 0, l, _ => by simp [List.insertIdx_zero, List.countP_cons, Nat.add_comm]
  | n + 1, [], h => absurd h (Nat.not_succ_le_zero n)
  | n + 1, x :: xs, h => by
    have ih := countP_insertIdx p a n xs (Nat.le_of_succ_le_succ h)
    simp [List.insertIdx_succ_cons, List.countP_cons, ih]
    omega

theorem countP_eraseIdx (p : SeqLayer → Bool) :
    ∀ (n : Nat) (l : List SeqLayer) (x : SeqLayer), l[n]? = some x →
      (l.eraseIdx n).countP p + (if p x then 1 else 0) = l.countP p
  | 0, [], x, h => by simp at h
  | 0, y :: ys, x, h => by
    have hx : y = x := by simpa using h
    subst hx
    simp [List.countP_cons, Nat.add_comm]
  | n + 1, [], x, h => by simp at h
  | n + 1, y :: ys, x, h => by
    have ih := countP_eraseIdx p n ys x (by simpa using h)
    simp [List.countP_cons, ← ih]
    omega

theorem applySeq_lambda_count (s : SeqState) (op : SeqOp)
    (h : s._n_lambda = (lamCount s : Int)) :
    (applySeq s op)._n_lambda = (lamCount (applySeq s op) : Int) := by
  cases op with
  | ins i layer =>
    have hle : min i s._layers.length ≤ s._layers.length := Nat.min_le_right _ _
    have hc := countP_insertIdx isLamLayer layer (min i s._layers.length) s._layers hle
    cases layer with
    | link id =>
      simp only [applySeq, Sequential.insert, lamCount] at *
      simp [hc, isLamLayer, h]
    | lam j =>
      simp only [applySeq, Sequential.insert, lamCount] at *
      simp only [hc, isLamLayer, if_true]
      push_cast
      omega
    | fn j =>
      simp only [applySeq, Sequential.insert, lamCount] at *
      simp [hc, isLamLayer, h]
  | del i =>
    cases hx : s._layers[i]? with
    | none => simpa [applySeq, Sequential.delitem, hx] using h
    | some layer =>
      have hc := countP_eraseIdx isLamLayer i s._layers layer hx
      cases layer with
      | link id =>
        simp only [applySeq, Sequential.delitem, hx, lamCount] at *
        simp only [isLamLayer, if_neg] at hc
        simp at hc
        simp [hc, h]
      | lam j =>
        simp only [applySeq, Sequential.delitem, hx, lamCount] at *
        simp only [isLamLayer, if_pos] at hc
        omega
      | fn j =>
        simp only [applySeq, Sequential.delitem, hx, lamCount] at *
        simp only [isLamLayer, if_neg] at hc
        simp at hc
        simp [hc, h]

theorem runSeq_lambda_count (ops : List SeqOp) :
    (runSeq ops)._n_lambda = (lamCount (runSeq ops) : Int) := by
  suffices hgen : ∀ s, s._n_lambda = (lamCount s : Int) →
      (ops.foldl applySeq s)._n_lambda = (lamCount (ops.foldl applySeq s) : Int) by
    exact hgen Sequential.empty (by simp [Sequential.empty, lamCount])
  induction ops with
  | nil => exact fun s hs => hs
  | cons op rest ih =>
    intro s hs
    simpa [List.foldl_cons] using ih (applySeq s op) (applySeq_lambda_count s op hs)

/-- Claim C7: for every `Sequential` reachable by insert and delete edits,
the anonymous-callable counter equals the number of lambdas in the layer
list (it is incremented when a lambda is inserted and decremented when one
is removed); pickling (`__reduce__`) raises the unserializable-state error
exactly while at least one lambda remains, and goes through with no such
error when there are none. -/
theorem sequential_lambda_pickle (ops : List SeqOp) :
    (runSeq ops)._n_lambda = (lamCount (runSeq ops) : Int) ∧
    (0 < lamCount (runSeq ops) →
      (Sequential.reduceGuard (runSeq ops)).isSome = true) ∧
    (lamCount (runSeq ops) = 0 → Sequential.reduceGuard (runSeq ops) = none) := by
  have h := runSeq_lambda_count ops
  refine ⟨h, ?_, ?_⟩
  · intro hpos
    have : (0 : Int) < (runSeq ops)._n_lambda := by
      rw [h]; exact_mod_cast hpos
    simp [Sequential.reduceGuard, this]
  · intro hz
    have : ¬ ((0 : Int) < (runSeq ops)._n_lambda) := by
      rw [h, hz]; simp
    simp [Sequential.reduceGuard, this]

theorem sequential_lambda_pickle_witness :
    (Sequential.reduceGuard (runSeq [SeqOp.ins 0 (SeqLayer.lam 5)])).isSome = true ∧
    Sequential.reduceGuard (runSeq []) = none :=
  ⟨(sequential_lambda_pickle [SeqOp.ins 0 (SeqLayer.lam 5)]).2.1 (by decide),
   (sequential_lambda_pickle []).2.2 (by decide)⟩

/-- A Python value as seen by `Sequential.__call__`: an opaque non-tuple
value or a tuple of values. -/
inductive PyVal where
  | atom : Nat → PyVal
  | tup : List PyVal → PyVal

/-- `isinstance(x, tuple)`. -/
def isTup : PyVal → Bool
  | PyVal.tup _ => true
  | _ => false

/-- The loop body of `Sequential.__call__`: each layer (a callable from an
argument list to a value) receives the current value unpacked when it is a
tuple, and as a single argument otherwise. -/
def feed (layers : List (List PyVal → PyVal)) (x : PyVal) : PyVal :=
  match layers with
  | [] => x
  | f :: fs =>
    match x with
    | PyVal.tup xs => feed fs (f xs)
    | v => feed fs (f [v])

/-- `Sequential.__call__(*x)`: the loop starts from the tuple of call
arguments and returns the value left after the last layer. -/
def Sequential.call (layers : List (List PyVal → PyVal))
    (args : List PyVal) : PyVal :=
  feed layers (PyVal.tup args)

/-- Claim C3: for a two-layer `Sequential` of callables `f` then `g` called
on a single input `x`: when `f(x)` is not a tuple the result is `g(f(x))`,
and when `f(x)` is a pair `(a, b)` the tuple is unpacked and the result is
`g(a, b)`. -/
theorem sequential_pipeline (f g : List PyVal → PyVal) (x : PyVal) :
    (isTup (f [x]) = false → Sequential.call [f, g] [x] = g [f [x]]) ∧
    (∀ a b, f [x] = PyVal.tup [a, b] → Sequential.call [f, g] [x] = g [a, b]) := by
  constructor
  · intro h
    show feed [f, g] (PyVal.tup [x]) = g [f [x]]
    rw [show feed [f, g] (PyVal.tup [x]) = feed [g] (f [x]) from rfl]
    cases hv : f [x] with
    | atom n => rfl
    | tup vs => rw [hv] at h; simp [isTup] at h
  · intro a b hv
    show feed [f, g] (PyVal.tup [x]) = g [a, b]
    rw [show feed [f, g] (PyVal.tup [x]) = feed [g] (f [x]) from rfl, hv]
    rfl

theorem sequential_pipeline_witness :
    Sequential.call [fun _ => PyVal.atom 1, fun vs => PyVal.tup vs]
      [PyVal.atom 0] = PyVal.tup [PyVal.atom 1] ∧
    Sequential.call [fun _ => PyVal.tup [PyVal.atom 1, PyVal.atom 2],
        fun vs => PyVal.tup vs]
      [PyVal.atom 0] = PyVal.tup [PyVal.atom 1, PyVal.atom 2] :=
  ⟨(sequential_pipeline (fun _ => PyVal.atom 1) (fun vs => PyVal.tup vs)
      (PyVal.atom 0)).1 rfl,
   (sequential_pipeline (fun _ => PyVal.tup [PyVal.atom 1, PyVal.atom 2])
      (fun vs => PyVal.tup vs) (PyVal.atom 0)).2
      (PyVal.atom 1) (PyVal.atom 2) rfl⟩

/-- Claim C10: a `Sequential` with an empty layer list returns the tuple
of its call arguments as-is, so on one argument `v` it returns the
one-element tuple `(v,)`, which is not the value `v` itself: the empty
pipeline is the identity only up to this tuple wrapping. -/
theorem empty_sequential_wraps (n : Nat) :
    Sequential.call [] [PyVal.atom n] = PyVal.tup [PyVal.atom n] ∧
    PyVal.tup [PyVal.atom n] ≠ PyVal.atom n :=
  ⟨rfl, by simp⟩

/-- A parameter as seen by `Sequential.__mul__`: only its data storage
matters here, abstracted by a storage identifier (`none` while the
parameter is uninitialized). -/
structure MParam where
  data : Option Nat
deriving DecidableEq

/-- A `Link` layer as seen by `Sequential.__mul__`: the list of its own
parameters. -/
structure MLink where
  mparams : List MParam
deriving DecidableEq

/-- A `Sequential` layer for the repetition operator: a `Link` carrying
parameter storage, or any other callable. -/
inductive PLayer where
  | plink : MLink → PLayer
  | pfunc : Nat → PLayer
deriving DecidableEq

/-- A `Sequential` together with an allocation counter: `nextPtr` is the
next fresh storage identifier, modelling array allocation; every live
storage id is below it. -/
structure PSeq where
  layers : List PLayer
  nextPtr : Nat
deriving DecidableEq

/-- `Link.copy` at this abstraction: the parameter holders are duplicated
but each holder keeps the same underlying data storage identifier (the
data array is shared between original and copy). -/
def MLink.copy (l : MLink) : MLink :=
  { mparams := l.mparams.map (fun p => { data := p.data }) }

/-- `Sequential.copy`: a new `Sequential` whose `Link` layers are
`Link.copy` copies (data storage shared) and whose other layers are
shallow-copied. -/
def PSeq.copy (s : PSeq) : PSeq :=
  { s with layers := s.layers.map (fun l =>
      match l with
      | PLayer.plink lk => PLayer.plink (MLink.copy lk)
      | PLayer.pfunc i => PLayer.pfunc i) }

/-- `copy.deepcopy` of a link followed by `param.initialize(param.shape)`
for every initialized parameter: each initialized parameter receives a
fresh storage identifier from the allocator; uninitialized parameters are
skipped (`include_uninit=False`). -/
def freshParams : List MParam → Nat → List MParam × Nat
  | [], c => ([], c)
  | p :: ps, c =>
    match p.data with
    | some _ =>
      let r := freshParams ps (c + 1)
      ({ data := some c } :: r.1, r.2)
    | none =>
      let r := freshParams ps c
      ({ data := none } :: r.1, r.2)

/-- One repetition round of `Sequential.__mul__`: every layer of the
original is appended to the accumulator — `Link` layers as re-initialized
deep copies, other callables as shallow copies. -/
def mulRound (src : List PLayer) (acc : List PLayer × Nat) :
    List PLayer × Nat :=
  src.foldl (fun ac layer =>
    match layer with
    | PLayer.plink lk =>
      let r := freshParams lk.mparams ac.2
      (ac.1 ++ [PLayer.plink { mparams := r.1 }], r.2)
    | PLayer.pfunc i => (ac.1 ++ [PLayer.pfunc i], ac.2)) acc

/-- `Sequential.__mul__(n_repeat)`: an empty `Sequential` when the count
is not positive; otherwise `self.copy()` followed by `n_repeat - 1`
repetition rounds over the original layers. -/
def PSeq.mul (s : PSeq) (n : Nat) : PSeq :=
  if n = 0 then { layers := [], nextPtr := s.nextPtr }
  else
    let r := (List.range (n - 1)).foldl (fun ac _ => mulRound s.layers ac)
      ((PSeq.copy s).layers, s.nextPtr)
    { layers := r.1, nextPtr := r.2 }

/-- The original link of the repetition example: one parameter whose data
lives in storage 0. -/
def origLink : MLink :=
  { mparams := [{ data := some 0 }] }

/-- `Sequential(origLink)` with allocation counter 1 (storage 0 is live). -/
def origSeq : PSeq :=
  { layers := [PLayer.plink origLink], nextPtr := 1 }

/-- Claim C8 counterexample: in `origSeq * 3`, the first `Link` layer of
the product holds a parameter with the very same storage identifier as the
original link (storage 0) — the first copy aliases the original, because
`Sequential.copy` shallow-copies `Link` parameters and `__mul__` only
re-initializes the copies appended after it. -/
theorem sequential_mul_alias_cex :
    (PSeq.mul origSeq 3).layers[0]? = some (PLayer.plink origLink) := by decide

/-- A link holding exactly one initialized parameter in storage `p`. -/
def oneParamLink (p : Nat) : MLink :=
  { mparams := [{ data := some p }] }

/-- A one-link `Sequential` whose parameter lives in storage `p`, with the
allocator at `c`. -/
def pcSeq (p c : Nat) : PSeq :=
  { layers := [PLayer.plink (oneParamLink p)], nextPtr := c }

/-- The storage identifiers of the initialized parameters of a parameter
list, in order. -/
def paramPtrs : List MParam → List Nat
  | [] => []
  | p :: ps =>
    match p.data with
    | some q => q :: paramPtrs ps
    | none => paramPtrs ps

/-- The storage identifiers of all initialized parameters held by the
`Link` layers of a layer list, in order. -/
def layerPtrs : List PLayer → List Nat
  | [] => []
  | PLayer.plink lk :: rest => paramPtrs lk.mparams ++ layerPtrs rest
  | PLayer.pfunc _ :: rest => layerPtrs rest

theorem layerPtrs_append (a b : List PLayer) :
    layerPtrs (a ++ b) = layerPtrs a ++ layerPtrs b := by
  induction a with
  | nil => rfl
  | cons l rest ih =>
    cases l with
    | plink lk => simp [layerPtrs, ih]
    | pfunc i => simp [layerPtrs, ih]

theorem mparam_copy_eq (p : MParam) : ({ data := p.data } : MParam) = p := by
  cases p
  rfl

theorem mlink_copy_eq (l : MLink) : MLink.copy l = l := by
  cases l with
  | mk ps =>
    simp only [MLink.copy, MLink.mk.injEq]
    calc ps.map (fun p => ({ data := p.data } : MParam))
        = ps.map id := List.map_congr_left (fun p _ => mparam_copy_eq p)
      _ = ps := List.map_id ps

/-- `Sequential.copy` keeps the layer list (and, in particular, every
parameter storage identifier) of the original: the copied holders alias
the same data arrays. -/
theorem PSeq.copy_layers (s : PSeq) : (PSeq.copy s).layers = s.layers := by
  simp only [PSeq.copy]
  calc s.layers.map (fun l =>
        match l with
        | PLayer.plink lk => PLayer.plink (MLink.copy lk)
        | PLayer.pfunc i => PLayer.pfunc i)
      = s.layers.map id :=
        List.map_congr_left (fun l _ => by cases l <;> simp [mlink_copy_eq])
    _ = s.layers := List.map_id _

/-- `freshParams` hands out exactly the next consecutive storage
identifiers, one per initialized parameter, and advances the allocator by
their number. -/
theorem freshParams_spec : ∀ (ps : List MParam) (c : Nat),
    paramPtrs (freshParams ps c).1 = List.range' c (paramPtrs ps).length ∧
    (freshParams ps c).2 = c + (paramPtrs ps).length
  | [], c => by simp [freshParams, paramPtrs]
  | p :: ps, c => by
    cases hd : p.data with
    | some q =>
      have ih := freshParams_spec ps (c + 1)
      simp only [freshParams, paramPtrs, hd]
      refine ⟨?_, ?_⟩
      · rw [ih.1, List.length_cons, List.range'_succ]
      · rw [ih.2, List.length_cons]
        omega
    | none =>
      have ih := freshParams_spec ps c
      simp only [freshParams, paramPtrs, hd]
      exact ih

/-- One repetition round appends layers whose initialized parameters take
exactly the next consecutive storage identifiers. -/
theorem mulRound_spec (src : List PLayer) : ∀ (acc : List PLayer × Nat),
    layerPtrs (mulRound src acc).1
      = layerPtrs acc.1 ++ List.range' acc.2 (layerPtrs src).length ∧
    (mulRound src acc).2 = acc.2 + (layerPtrs src).length := by
  induction src with
  | nil => intro acc; simp [mulRound, layerPtrs]
  | cons l rest ih =>
    intro acc
    cases l with
    | plink lk =>
      have hstep : mulRound (PLayer.plink lk :: rest) acc
          = mulRound rest
            (acc.1 ++ [PLayer.plink { mparams := (freshParams lk.mparams acc.2).1 }],
             (freshParams lk.mparams acc.2).2) := by
        simp [mulRound]
      have hf := freshParams_spec lk.mparams acc.2
      have ihh := ih
        (acc.1 ++ [PLayer.plink { mparams := (freshParams lk.mparams acc.2).1 }],
         (freshParams lk.mparams acc.2).2)
      rw [hstep]
      refine ⟨?_, ?_⟩
      · rw [ihh.1]
        simp only [layerPtrs_append, layerPtrs, hf.1, hf.2, List.append_nil,
          List.append_assoc, List.range'_append_1, List.length_append,
          List.length_range']
        rw [Nat.add_comm ((layerPtrs rest).length) ((paramPtrs lk.mparams).length)]
      · rw [ihh.2, hf.2]
        simp only [layerPtrs, List.length_append]
        omega
    | pfunc i =>
      have hstep : mulRound (PLayer.pfunc i :: rest) acc
          = mulRound rest (acc.1 ++ [PLayer.pfunc i], acc.2) := by
        simp [mulRound]
      have ihh := ih (acc.1 ++ [PLayer.pfunc i], acc.2)
      rw [hstep]
      refine ⟨?_, ?_⟩
      · rw [ihh.1]
        simp [layerPtrs_append, layerPtrs]
      · rw [ihh.2]
        simp [layerPtrs]

/-- `k` repetition rounds append layers whose initialized parameters take
exactly the next `k * (number of initialized parameters)` consecutive
storage identifiers. -/
theorem mulRounds_spec (src : List PLayer) : ∀ (k : Nat) (acc : List PLayer × Nat),
    layerPtrs ((List.range k).foldl (fun ac _ => mulRound src ac) acc).1
      = layerPtrs acc.1 ++ List.range' acc.2 (k * (layerPtrs src).length) ∧
    ((List.range k).foldl (fun ac _ => mulRound src ac) acc).2
      = acc.2 + k * (layerPtrs src).length
  | 0, acc => by simp
  | k + 1, acc => by
    have ih := mulRounds_spec src k acc
    have hm := mulRound_spec src
      ((List.range k).foldl (fun ac _ => mulRound src ac) acc)
    rw [List.range_succ, List.foldl_append, List.foldl_cons, List.foldl_nil]
    refine ⟨?_, ?_⟩
    · rw [hm.1, ih.1, ih.2, List.append_assoc, List.range'_append_1]
      rw [show (layerPtrs src).length + k * (layerPtrs src).length
          = (k + 1) * (layerPtrs src).length from by ring]
    · rw [hm.2, ih.2, Nat.succ_mul]
      omega

theorem mulRound_extends (src : List PLayer) : ∀ (acc : List PLayer × Nat),
    ∃ tl, (mulRound src acc).1 = acc.1 ++ tl := by
  induction src with
  | nil =>
    intro acc
    exact ⟨[], by simp [mulRound]⟩
  | cons l rest ih =>
    intro acc
    obtain ⟨x, c2, hx⟩ : ∃ x c2, mulRound (l :: rest) acc
        = mulRound rest (acc.1 ++ [x], c2) := by
      cases l with
      | plink lk =>
        refine ⟨PLayer.plink { mparams := (freshParams lk.mparams acc.2).1 },
          (freshParams lk.mparams acc.2).2, ?_⟩
        simp [mulRound]
      | pfunc i =>
        refine ⟨PLayer.pfunc i, acc.2, ?_⟩
        simp [mulRound]
    obtain ⟨tl, htl⟩ := ih (acc.1 ++ [x], c2)
    refine ⟨[x] ++ tl, ?_⟩
    rw [hx, htl, List.append_assoc]

theorem mulRounds_extends (src : List PLayer) :
    ∀ (k : Nat) (acc : List PLayer × Nat),
    ∃ tl, ((List.range k).foldl (fun ac _ => mulRound src ac) acc).1 = acc.1 ++ tl
  | 0, acc => ⟨[], by simp⟩
  | k + 1, acc => by
    obtain ⟨t1, h1⟩ := mulRounds_extends src k acc
    obtain ⟨t2, h2⟩ := mulRound_extends src
      ((List.range k).foldl (fun ac _ => mulRound src ac) acc)
    rw [List.range_succ, List.foldl_append, List.foldl_cons, List.foldl_nil]
    refine ⟨t1 ++ t2, ?_⟩
    rw [h2, h1, List.append_assoc]

/-- Claim C8 as amended, for every `Sequential` and every repeat count
`n ≥ 2` (under the allocator invariant that all live storage identifiers
are below `nextPtr`): the product's first block of layers is exactly the
original layer list — the first copy, produced by `Sequential.copy`,
aliases the original's parameter storage pointer for pointer — while the
storage of the copies appended by the repetition rounds (the second
through n-th) consists of freshly allocated identifiers: pairwise distinct
(no aliasing between any pair of appended copies) and disjoint from the
original's (and hence the first copy's) storage. -/
theorem sequential_mul_amended (s : PSeq) (n : Nat) (h2 : 2 ≤ n)
    (hwf : ∀ q ∈ layerPtrs s.layers, q < s.nextPtr) :
    (PSeq.mul s n).layers.take s.layers.length = s.layers ∧
    layerPtrs ((PSeq.mul s n).layers.drop s.layers.length)
      = List.range' s.nextPtr ((n - 1) * (layerPtrs s.layers).length) ∧
    (layerPtrs ((PSeq.mul s n).layers.drop s.layers.length)).Nodup ∧
    (∀ q ∈ layerPtrs ((PSeq.mul s n).layers.drop s.layers.length),
      s.nextPtr ≤ q ∧ q ∉ layerPtrs s.layers) := by
  have hn0 : ¬ (n = 0) := by omega
  have hcopy : (PSeq.copy s).layers = s.layers := PSeq.copy_layers s
  have hm : (PSeq.mul s n).layers
      = ((List.range (n - 1)).foldl (fun ac _ => mulRound s.layers ac)
          ((PSeq.copy s).layers, s.nextPtr)).1 := by
    simp [PSeq.mul, hn0]
  obtain ⟨tl, htl⟩ := mulRounds_extends s.layers (n - 1)
    ((PSeq.copy s).layers, s.nextPtr)
  have hspec := mulRounds_spec s.layers (n - 1) ((PSeq.copy s).layers, s.nextPtr)
  rw [hcopy] at hm htl hspec
  have htake : (PSeq.mul s n).layers.take s.layers.length = s.layers := by
    rw [hm, htl, List.take_left]
  have hdrop : (PSeq.mul s n).layers.drop s.layers.length = tl := by
    rw [hm, htl, List.drop_left]
  have hboth : layerPtrs s.layers ++ layerPtrs tl
      = layerPtrs s.layers
        ++ List.range' s.nextPtr ((n - 1) * (layerPtrs s.layers).length) := by
    rw [← layerPtrs_append, ← htl]
    exact hspec.1
  have htlp : layerPtrs tl
      = List.range' s.nextPtr ((n - 1) * (layerPtrs s.layers).length) :=
    List.append_cancel_left hboth
  refine ⟨htake, ?_, ?_, ?_⟩
  · rw [hdrop, htlp]
  · rw [hdrop, htlp]
    exact List.nodup_range' _ _
  · intro q hq
    rw [hdrop, htlp] at hq
    have hmem := List.mem_range'_1.mp hq
    exact ⟨hmem.1, fun hins => by have := hwf q hins; omega⟩

theorem sequential_mul_amended_witness :
    (PSeq.mul (pcSeq 0 1) 3).layers.take 1 = (pcSeq 0 1).layers ∧
    layerPtrs ((PSeq.mul (pcSeq 0 1) 3).layers.drop 1) = List.range' 1 2 ∧
    (layerPtrs ((PSeq.mul (pcSeq 0 1) 3).layers.drop 1)).Nodup := by
  have h := sequential_mul_amended (pcSeq 0 1) 3 (by omega) (by decide)
  exact ⟨h.1, h.2.1, h.2.2.1⟩

end ChainerLink
